import Mathlib

/-!
Verification of the dagster scheduling / sensor-evaluation core.

This file shallowly embeds the two subsystems under scrutiny:

* `python_modules/dagster/dagster/_utils/schedules.py` — cron tick
  resolution (`_replace_date_fields`, `_find_previous_schedule_time`,
  `cron_string_iterator`, `reverse_cron_string_iterator`,
  `schedule_execution_time_iterator`, `is_valid_cron_string`,
  `is_valid_cron_schedule`);
* `python_modules/dagster/dagster/_core/definitions/sensor_definition.py`
  — the sensor evaluation engine (`SensorDefinition.evaluate_tick`,
  `check_valid_run_requests`, `SensorExecutionData`, `_wrap_asset_fn`).

Machine integers are modelled as `Int`/`Nat`; Python exceptions become
`Except`; the pendulum / pytz timezone layer is modelled by an explicit
piecewise-constant UTC-offset function (a base offset plus a sorted list
of transitions), and pendulum's documented DST policies
(`TRANSITION_ERROR` raising on non-existent/ambiguous wall times,
`POST_TRANSITION` choosing the later candidate) are implemented over
that model.  Python `%` on a positive divisor is `Int.emod`, `//` is
`Int.fdiv`.
-/

namespace DagsterSched

/-! ## Civil calendar arithmetic (model of the Gregorian calendar used by
pendulum / `datetime`). -/

def isLeap (y : Int) : Bool :=
  y.emod 4 == 0 && (y.emod 100 != 0 || y.emod 400 == 0)

def daysInMonth (y : Int) (m : Int) : Int :=
  if m = 2 then (if isLeap y then 29 else 28)
  else if m = 4 ∨ m = 6 ∨ m = 9 ∨ m = 11 then 30
  else 31

/-- Days since 1970-01-01 of a civil date (standard civil-from-days
algorithm, floor division). -/
def daysFromCivil (y m d : Int) : Int :=
  let y' := if m ≤ 2 then y - 1 else y
  let era := Int.fdiv y' 400
  let yoe := y' - era * 400
  let mp := Int.emod (m + 9) 12
  let doy := Int.fdiv (153 * mp + 2) 5 + d - 1
  let doe := yoe * 365 + Int.fdiv yoe 4 - Int.fdiv yoe 100 + doy
  era * 146097 + doe - 719468

/-- Civil date (year, month, day) of a count of days since 1970-01-01. -/
def civilFromDays (z0 : Int) : Int × Int × Int :=
  let z := z0 + 719468
  let era := Int.fdiv z 146097
  let doe := z - era * 146097
  let yoe := Int.fdiv (doe - Int.fdiv doe 1460 + Int.fdiv doe 36524 - Int.fdiv doe 146096) 365
  let y := yoe + era * 400
  let doy := doe - (365 * yoe + Int.fdiv yoe 4 - Int.fdiv yoe 100)
  let mp := Int.fdiv (5 * doy + 2) 153
  let d := doy - Int.fdiv (153 * mp + 2) 5 + 1
  let m := mp + (if mp < 10 then 3 else -9)
  (if m ≤ 2 then y + 1 else y, m, d)

/-! ## Timezone model.

A timezone is a base UTC offset (seconds) plus a list of transitions
`(start, offset)`: from UTC instant `start` on, the offset is `offset`.
The list is expected sorted by strictly increasing `start`; theorems
carry that as a hypothesis (`TzSorted`). -/

structure Timezone where
  base : Int
  transitions : List (Int × Int)

def TzSorted (tz : Timezone) : Prop :=
  List.Chain' (fun a b => a.1 < b.1) tz.transitions

def offsetAtAux (cur : Int) : List (Int × Int) → Int → Int
  | [], _ => cur
  | (s, o) :: rest, t => if t < s then cur else offsetAtAux o rest t

/-- UTC offset (seconds) in effect at UTC instant `t`. -/
def Timezone.offsetAt (tz : Timezone) (t : Int) : Int :=
  offsetAtAux tz.base tz.transitions t

/-- Local "naive" clock reading (seconds since the local epoch) shown at
UTC instant `t`. -/
def Timezone.localNaive (tz : Timezone) (t : Int) : Int :=
  t + tz.offsetAt t

def loOk : Option Int → Int → Bool
  | none, _ => true
  | some lo, c => lo ≤ c

/-- All candidate UTC instants, per offset piece, whose wall clock shows
the naive reading `L`; `cur` is the offset of the current piece and `lo`
its inclusive lower bound (none for the initial piece). -/
def solutionsAux (L : Int) : Int → Option Int → List (Int × Int) → List Int
  | cur, lo, [] => if loOk lo (L - cur) then [L - cur] else []
  | cur, lo, (s, o) :: rest =>
      (if loOk lo (L - cur) ∧ L - cur < s then [L - cur] else []) ++
        solutionsAux L o (some s) rest

/-- The UTC instants whose local wall clock in `tz` reads `L`
(0 of them inside a spring-forward gap, 2 during a fall-back overlap). -/
def Timezone.localInstants (tz : Timezone) (L : Int) : List Int :=
  solutionsAux L tz.base none tz.transitions

def gapFixAux (L : Int) : Int → List (Int × Int) → Int
  | prev, [] => L - prev
  | prev, (s, o) :: rest =>
      if s + prev ≤ L ∧ L < s + o then L - prev else gapFixAux L o rest

/-- Pendulum's `POST_TRANSITION` normalization of a naive local reading:
the latest instant showing `L` if one exists, otherwise (inside a
spring-forward gap) the reading pushed forward across the gap. -/
def Timezone.normalizePost (tz : Timezone) (L : Int) : Int :=
  match (tz.localInstants L).getLast? with
  | some t => t
  | none => gapFixAux L tz.base tz.transitions

inductive DstRule
  | transitionError
  | postTransition
  deriving DecidableEq, Repr

inductive PendulumError
  | nonExisting
  | ambiguous
  | invalidDate
  | checkError
  deriving DecidableEq, Repr

def validFields (y mo d h mi : Int) : Prop :=
  1 ≤ mo ∧ mo ≤ 12 ∧ 1 ≤ d ∧ d ≤ daysInMonth y mo ∧ 0 ≤ h ∧ h < 24 ∧ 0 ≤ mi ∧ mi < 60

instance (y mo d h mi : Int) : Decidable (validFields y mo d h mi) := by
  unfold validFields; infer_instance

/-- Naive local reading of civil fields. -/
def naiveOf (y mo d h mi : Int) : Int :=
  86400 * daysFromCivil y mo d + 3600 * h + 60 * mi

/-- Model of `create_pendulum_time(year, month, day, hour, minute, 0, 0,
tz=…, dst_rule=…)`: validates the civil fields (pendulum raises
`ValueError` on e.g. February 30th) and resolves the wall-clock reading
under the requested DST rule. -/
def createPendulumTime (tz : Timezone) (y mo d h mi : Int) (rule : DstRule) :
    Except PendulumError Int :=
  if ¬ validFields y mo d h mi then .error .invalidDate
  else
    let L := naiveOf y mo d h mi
    match rule with
    | .transitionError =>
        match tz.localInstants L with
        | [] => .error .nonExisting
        | [t] => .ok t
        | _ => .error .ambiguous
    | .postTransition => .ok (tz.normalizePost L)

/-- Local civil fields (year, month, day, hour, minute) at UTC instant
`t`. -/
def Timezone.localFields (tz : Timezone) (t : Int) : Int × Int × Int × Int × Int :=
  let L := tz.localNaive t
  let days := Int.fdiv L 86400
  let secs := Int.emod L 86400
  let (y, mo, d) := civilFromDays days
  (y, mo, d, Int.fdiv secs 3600, Int.emod (Int.fdiv secs 60) 60)

def Timezone.localYear (tz : Timezone) (t : Int) : Int := (tz.localFields t).1
def Timezone.localMonth (tz : Timezone) (t : Int) : Int := (tz.localFields t).2.1
def Timezone.localDay (tz : Timezone) (t : Int) : Int := (tz.localFields t).2.2.1
def Timezone.localHour (tz : Timezone) (t : Int) : Int := (tz.localFields t).2.2.2.1
def Timezone.localMinute (tz : Timezone) (t : Int) : Int := (tz.localFields t).2.2.2.2

/-- Day of week at UTC instant `t` in `tz`, 0 = Sunday (1970-01-01 was a
Thursday). -/
def Timezone.localDayOfWeek (tz : Timezone) (t : Int) : Int :=
  Int.emod (Int.fdiv (tz.localNaive t) 86400 + 4) 7

/-- Model of pendulum `subtract(days=n)`: shift the wall clock back `n`
calendar days and renormalize (`POST_TRANSITION`). -/
def Timezone.subtractDays (tz : Timezone) (t n : Int) : Int :=
  tz.normalizePost (tz.localNaive t - 86400 * n)

def Timezone.subtractWeeks (tz : Timezone) (t n : Int) : Int :=
  tz.subtractDays t (7 * n)

/-- Model of pendulum `subtract(months=n)`: decrement the local month
(clamping the day-of-month to the target month's length, as pendulum
does) and renormalize. -/
def Timezone.subtractMonths (tz : Timezone) (t n : Int) : Int :=
  let (y, mo, d, _, _) := tz.localFields t
  let m0 := y * 12 + (mo - 1) - n
  let y' := Int.fdiv m0 12
  let mo' := Int.emod m0 12 + 1
  let d' := min d (daysInMonth y' mo')
  let secOfDay := Int.emod (tz.localNaive t) 86400
  tz.normalizePost (86400 * daysFromCivil y' mo' d' + secOfDay)

/-- Model of `_replace_date_fields(pendulum_date, hour, minute, day)`:
try the exact wall time with `TRANSITION_ERROR`; on a non-existent time
retry at `(hour+1, minute=0)`; on an ambiguous time resolve with
`POST_TRANSITION` (the later occurrence); any other error (e.g. an
invalid civil date) propagates, as the Python `try` only catches
`NonExistingTime` and `AmbiguousTime`. -/
def replaceDateFields (tz : Timezone) (pd : Int) (hour minute day : Int) :
    Except PendulumError Int :=
  let y := tz.localYear pd
  let mo := tz.localMonth pd
  match createPendulumTime tz y mo day hour minute .transitionError with
  | .ok t => .ok t
  | .error .nonExisting => createPendulumTime tz y mo day (hour + 1) 0 .transitionError
  | .error .ambiguous => createPendulumTime tz y mo day hour minute .postTransition
  | .error e => .error e

inductive ScheduleType
  | hourly
  | daily
  | weekly
  | monthly
  deriving DecidableEq, Repr

/-- Model of `_find_previous_schedule_time(minute, hour, day,
day_of_week, schedule_type, pendulum_date)`; `pd` is the UTC timestamp
of the pendulum date, `tz` its timezone.  `check.not_none` failures
surface as `.checkError`. -/
def findPreviousScheduleTime (tz : Timezone)
    (minute hour day dayOfWeek : Option Int) (scheduleType : ScheduleType)
    (pd : Int) : Except PendulumError Int :=
  match scheduleType with
  | .hourly =>
      match minute with
      | none => .error .checkError
      | some m =>
          let t1 := pd - Int.emod pd 60
          let currentMinute := tz.localMinute pd
          let t2 := t1 - 60 * Int.emod (currentMinute - m) 60
          .ok (if t2 ≥ pd then t2 - 60 * 60 else t2)
  | .daily =>
      match hour, minute with
      | some h, some m => do
          let newTime ← replaceDateFields tz pd h m (tz.localDay pd)
          if newTime ≥ pd then
            let newTime2 := tz.subtractDays newTime 1
            replaceDateFields tz newTime2 h m (tz.localDay newTime2)
          else
            pure newTime
      | _, _ => .error .checkError
  | .weekly =>
      match hour, minute with
      | some h, some m => do
          let newTime ← replaceDateFields tz pd h m (tz.localDay pd)
          let currentDayOfWeek := tz.localDayOfWeek newTime
          let newTime1 ←
            match dayOfWeek with
            | none => Except.error PendulumError.checkError
            | some dw =>
                pure (if dw ≠ currentDayOfWeek then
                        tz.subtractDays newTime (Int.emod (currentDayOfWeek - dw) 7)
                      else newTime)
          let newTime2 := if newTime1 ≥ pd then tz.subtractWeeks newTime1 1 else newTime1
          replaceDateFields tz newTime2 h m (tz.localDay newTime2)
      | _, _ => .error .checkError
  | .monthly =>
      match hour, minute, day with
      | some h, some m, some d => do
          let newTime ← replaceDateFields tz pd h m d
          if newTime ≥ pd then
            let newTime2 := tz.subtractMonths newTime 1
            replaceDateFields tz newTime2 h m d
          else
            pure newTime
      | _, _, _ => .error .checkError

instance {ε α : Type} [DecidableEq ε] [DecidableEq α] : DecidableEq (Except ε α) := fun a b =>
  match a, b with
  | .ok x, .ok y => if h : x = y then .isTrue (by rw [h]) else .isFalse (by simp [h])
  | .error x, .error y => if h : x = y then .isTrue (by rw [h]) else .isFalse (by simp [h])
  | .ok _, .error _ => .isFalse (by simp)
  | .error _, .ok _ => .isFalse (by simp)

/-! ## Correctness lemmas for the wall-clock solver `localInstants`. -/

/-- Lower-bound discipline linking the accumulator `lo` to the next
transition of the remaining list. -/
def LoPrec : Option Int → List (Int × Int) → Prop
  | none, _ => True
  | some _, [] => True
  | some v, (s, _) :: _ => v ≤ s

theorem solutionsAux_mem_loOk {L : Int} :
    ∀ (trs : List (Int × Int)) (cur : Int) (lo : Option Int),
      List.Chain' (fun a b => a.1 < b.1) trs → LoPrec lo trs →
      ∀ c ∈ solutionsAux L cur lo trs, loOk lo c := by
  intro trs
  induction trs with
  | nil =>
      intro cur lo _ _ c hc
      simp only [solutionsAux] at hc
      split at hc
      · next h => simp at hc; subst hc; exact h
      · simp at hc
  | cons p rest ih =>
      obtain ⟨s, o⟩ := p
      intro cur lo hchain hlo c hc
      simp only [solutionsAux, List.mem_append] at hc
      rcases hc with hc | hc
      · split at hc
        · next h => simp at hc; subst hc; exact h.1
        · simp at hc
      · have hchain' : List.Chain' (fun a b => a.1 < b.1) rest := hchain.tail
        have hlop : LoPrec (some s) rest := by
          cases rest with
          | nil => trivial
          | cons q t =>
              have := List.chain'_cons.mp hchain
              exact le_of_lt this.1
        have hs := ih o (some s) hchain' hlop c hc
        cases lo with
        | none => trivial
        | some v =>
            have hvs : v ≤ s := by
              cases rest <;> exact hlo
            simp only [loOk, decide_eq_true_eq] at hs ⊢
            omega

theorem solutionsAux_sound {L : Int} :
    ∀ (trs : List (Int × Int)) (cur : Int) (lo : Option Int),
      List.Chain' (fun a b => a.1 < b.1) trs → LoPrec lo trs →
      ∀ c ∈ solutionsAux L cur lo trs, offsetAtAux cur trs c = L - c := by
  intro trs
  induction trs with
  | nil =>
      intro cur lo _ _ c hc
      simp only [solutionsAux] at hc
      split at hc
      · simp at hc; subst hc
        simp only [offsetAtAux]
        omega
      · simp at hc
  | cons p rest ih =>
      obtain ⟨s, o⟩ := p
      intro cur lo hchain hlo c hc
      simp only [solutionsAux, List.mem_append] at hc
      have hchain' : List.Chain' (fun a b => a.1 < b.1) rest := hchain.tail
      have hlop : LoPrec (some s) rest := by
        cases rest with
        | nil => trivial
        | cons q t => exact le_of_lt (List.chain'_cons.mp hchain).1
      rcases hc with hc | hc
      · split at hc
        · next h =>
            simp at hc; subst hc
            simp only [offsetAtAux, if_pos h.2]
            ring
        · simp at hc
      · have hge : loOk (some s) c := solutionsAux_mem_loOk rest o (some s) hchain' hlop c hc
        simp only [loOk, decide_eq_true_eq] at hge
        have : ¬ (c < s) := by omega
        simp only [offsetAtAux, if_neg this]
        exact ih o (some s) hchain' hlop c hc

theorem solutionsAux_complete {L : Int} :
    ∀ (trs : List (Int × Int)) (cur : Int) (lo : Option Int),
      List.Chain' (fun a b => a.1 < b.1) trs → LoPrec lo trs →
      ∀ t, loOk lo t → offsetAtAux cur trs t = L - t →
        t ∈ solutionsAux L cur lo trs := by
  intro trs
  induction trs with
  | nil =>
      intro cur lo _ _ t hok hoff
      simp only [offsetAtAux] at hoff
      have : t = L - cur := by omega
      subst this
      simp only [solutionsAux, if_pos hok]
      simp
  | cons p rest ih =>
      obtain ⟨s, o⟩ := p
      intro cur lo hchain hlo t hok hoff
      have hchain' : List.Chain' (fun a b => a.1 < b.1) rest := hchain.tail
      have hlop : LoPrec (some s) rest := by
        cases rest with
        | nil => trivial
        | cons q tl => exact le_of_lt (List.chain'_cons.mp hchain).1
      simp only [solutionsAux, List.mem_append]
      by_cases hts : t < s
      · left
        simp only [offsetAtAux, if_pos hts] at hoff
        have : t = L - cur := by omega
        subst this
        have : loOk lo (L - cur) ∧ L - cur < s := ⟨hok, hts⟩
        simp only [if_pos this]
        simp
      · right
        simp only [offsetAtAux, if_neg hts] at hoff
        have hok' : loOk (some s) t := by simp only [loOk, decide_eq_true_eq]; omega
        exact ih o (some s) hchain' hlop t hok' hoff

theorem solutionsAux_sorted {L : Int} :
    ∀ (trs : List (Int × Int)) (cur : Int) (lo : Option Int),
      List.Chain' (fun a b => a.1 < b.1) trs → LoPrec lo trs →
      List.Pairwise (· < ·) (solutionsAux L cur lo trs) := by
  intro trs
  induction trs with
  | nil =>
      intro cur lo _ _
      simp only [solutionsAux]
      split <;> simp
  | cons p rest ih =>
      obtain ⟨s, o⟩ := p
      intro cur lo hchain hlo
      have hchain' : List.Chain' (fun a b => a.1 < b.1) rest := hchain.tail
      have hlop : LoPrec (some s) rest := by
        cases rest with
        | nil => trivial
        | cons q tl => exact le_of_lt (List.chain'_cons.mp hchain).1
      simp only [solutionsAux]
      refine List.pairwise_append.mpr ⟨?_, ih o (some s) hchain' hlop, ?_⟩
      · split <;> simp
      · intro x hx y hy
        have hxval : x = L - cur ∧ L - cur < s := by
          split at hx
          · next h => simp at hx; exact ⟨hx, h.2⟩
          · simp at hx
        have hys : loOk (some s) y :=
          solutionsAux_mem_loOk rest o (some s) hchain' hlop y hy
        simp only [loOk, decide_eq_true_eq] at hys
        omega

theorem sorted_le_getLast :
    ∀ (l : List Int), List.Pairwise (· < ·) l →
      ∀ c ∈ l, ∀ m, l.getLast? = some m → c ≤ m := by
  intro l
  induction l with
  | nil => intro _ c hc; simp at hc
  | cons a t ih =>
      intro hp c hc m hm
      cases t with
      | nil =>
          simp at hc hm
          omega
      | cons b t' =>
          rw [List.getLast?_cons_cons] at hm
          rcases List.mem_cons.mp hc with hca | hct
          · subst hca
            have hmmem : m ∈ b :: t' := by
              obtain ⟨hne, hx⟩ := List.mem_getLast?_eq_getLast (Option.mem_def.mpr hm)
              subst hx
              exact List.getLast_mem hne
            have := (List.pairwise_cons.mp hp).1 m hmmem
            omega
          · exact ih (List.pairwise_cons.mp hp).2 c hct m hm

theorem getLast?_isSome_of_mem {l : List Int} {c : Int} (hc : c ∈ l) :
    ∃ m, l.getLast? = some m := by
  cases l with
  | nil => simp at hc
  | cons a t => exact ⟨(a :: t).getLast (by simp), List.getLast?_eq_getLast _ _⟩

theorem localInstants_sound (tz : Timezone) (hs : TzSorted tz) {L c : Int}
    (hc : c ∈ tz.localInstants L) : tz.localNaive c = L := by
  have h := solutionsAux_sound tz.transitions tz.base none hs trivial c hc
  unfold Timezone.localNaive Timezone.offsetAt
  omega

theorem localInstants_complete (tz : Timezone) (hs : TzSorted tz) {L t : Int}
    (ht : tz.localNaive t = L) : t ∈ tz.localInstants L := by
  apply solutionsAux_complete tz.transitions tz.base none hs trivial t
  · simp [loOk]
  · unfold Timezone.localNaive Timezone.offsetAt at ht
    omega

theorem localInstants_sorted (tz : Timezone) (hs : TzSorted tz) (L : Int) :
    List.Pairwise (· < ·) (tz.localInstants L) :=
  solutionsAux_sorted tz.transitions tz.base none hs trivial

theorem createTE_ok_sound (tz : Timezone) (hs : TzSorted tz) {y mo d h mi t : Int}
    (hok : createPendulumTime tz y mo d h mi .transitionError = .ok t) :
    tz.localNaive t = naiveOf y mo d h mi := by
  simp only [createPendulumTime] at hok
  split at hok
  · exact absurd hok (by simp)
  · cases hsols : tz.localInstants (naiveOf y mo d h mi) with
    | nil => rw [hsols] at hok; simp at hok
    | cons a tl =>
        cases tl with
        | nil =>
            rw [hsols] at hok
            simp only [Except.ok.injEq] at hok
            subst hok
            exact localInstants_sound tz hs (hsols ▸ List.mem_singleton_self a)
        | cons b tl' => rw [hsols] at hok; simp at hok

theorem createTE_unique_ok (tz : Timezone) (hs : TzSorted tz) {y mo d h mi t : Int}
    (hv : validFields y mo d h mi)
    (ht : tz.localNaive t = naiveOf y mo d h mi)
    (huniq : ∀ t', tz.localNaive t' = naiveOf y mo d h mi → t' = t) :
    createPendulumTime tz y mo d h mi .transitionError = .ok t := by
  have hmem : t ∈ tz.localInstants (naiveOf y mo d h mi) :=
    localInstants_complete tz hs ht
  simp only [createPendulumTime]
  rw [if_neg (not_not_intro hv)]
  cases hsols : tz.localInstants (naiveOf y mo d h mi) with
  | nil => rw [hsols] at hmem; simp at hmem
  | cons a tl =>
      cases tl with
      | nil =>
          rw [hsols] at hmem
          simp at hmem
          simp [hmem]
      | cons b tl' =>
          exfalso
          have hsorted := localInstants_sorted tz hs (naiveOf y mo d h mi)
          rw [hsols] at hsorted
          have hab : a < b := (List.pairwise_cons.mp hsorted).1 b (by simp)
          have ha : tz.localNaive a = naiveOf y mo d h mi :=
            localInstants_sound tz hs (hsols ▸ (by simp : a ∈ a :: b :: tl'))
          have hb : tz.localNaive b = naiveOf y mo d h mi :=
            localInstants_sound tz hs (hsols ▸ (by simp : b ∈ a :: b :: tl'))
          have := huniq a ha
          have := huniq b hb
          omega

theorem createTE_nonexisting (tz : Timezone) (hs : TzSorted tz) {y mo d h mi : Int}
    (hv : validFields y mo d h mi)
    (hno : ∀ t, tz.localNaive t ≠ naiveOf y mo d h mi) :
    createPendulumTime tz y mo d h mi .transitionError = .error .nonExisting := by
  have hsols : tz.localInstants (naiveOf y mo d h mi) = [] := by
    cases hsols' : tz.localInstants (naiveOf y mo d h mi) with
    | nil => rfl
    | cons a tl =>
        exact absurd (localInstants_sound tz hs (hsols' ▸ (by simp : a ∈ a :: tl)))
          (hno a)
  simp only [createPendulumTime]
  rw [if_neg (not_not_intro hv), hsols]

theorem createTE_ambiguous (tz : Timezone) (hs : TzSorted tz) {y mo d h mi : Int}
    (hv : validFields y mo d h mi)
    (hamb : ∃ t₁ t₂, t₁ ≠ t₂ ∧ tz.localNaive t₁ = naiveOf y mo d h mi ∧
      tz.localNaive t₂ = naiveOf y mo d h mi) :
    createPendulumTime tz y mo d h mi .transitionError = .error .ambiguous := by
  obtain ⟨t₁, t₂, hne, h₁, h₂⟩ := hamb
  have hm₁ := localInstants_complete tz hs h₁
  have hm₂ := localInstants_complete tz hs h₂
  simp only [createPendulumTime]
  rw [if_neg (not_not_intro hv)]
  cases hsols : tz.localInstants (naiveOf y mo d h mi) with
  | nil => rw [hsols] at hm₁; simp at hm₁
  | cons a tl =>
      cases tl with
      | nil =>
          rw [hsols] at hm₁ hm₂
          simp at hm₁ hm₂
          exact absurd (hm₁.trans hm₂.symm) hne
      | cons b tl' => rfl

theorem normalizePost_spec (tz : Timezone) (hs : TzSorted tz) {L : Int}
    (hex : ∃ t, tz.localNaive t = L) :
    tz.localNaive (tz.normalizePost L) = L ∧
      ∀ s, tz.localNaive s = L → s ≤ tz.normalizePost L := by
  obtain ⟨t, ht⟩ := hex
  have hmem := localInstants_complete tz hs ht
  obtain ⟨m, hm⟩ := getLast?_isSome_of_mem hmem
  have hmmem : m ∈ tz.localInstants L := by
    obtain ⟨hne, hx⟩ := List.mem_getLast?_eq_getLast (Option.mem_def.mpr hm)
    subst hx
    exact List.getLast_mem hne
  have hpost : tz.normalizePost L = m := by
    unfold Timezone.normalizePost
    rw [hm]
  rw [hpost]
  refine ⟨localInstants_sound tz hs hmmem, ?_⟩
  intro s hsL
  exact sorted_le_getLast _ (localInstants_sorted tz hs L)
    s (localInstants_complete tz hs hsL) m hm

/-- C5: for every date, hour, minute and (well-formed) timezone,
`_replace_date_fields` (a) returns exactly the requested wall-clock time
when that wall time exists uniquely, (b) on a nonexistent wall time
(spring-forward gap) retries at wall clock `(hour+1, minute=0)` on the
same date under the same raising rule, and (c) on an ambiguous wall time
(fall-back overlap) resolves to the later of the possible instants. -/
theorem c5_replace_date_fields_dst_resolution
    (tz : Timezone) (hs : TzSorted tz) (pd hour minute day L : Int)
    (hv : validFields (tz.localYear pd) (tz.localMonth pd) day hour minute)
    (hL : L = naiveOf (tz.localYear pd) (tz.localMonth pd) day hour minute) :
    ((∀ t, tz.localNaive t = L → (∀ t', tz.localNaive t' = L → t' = t) →
        replaceDateFields tz pd hour minute day = .ok t) ∧
      ((∀ t, tz.localNaive t ≠ L) →
        replaceDateFields tz pd hour minute day =
          createPendulumTime tz (tz.localYear pd) (tz.localMonth pd) day (hour + 1) 0
            .transitionError ∧
        ∀ t', createPendulumTime tz (tz.localYear pd) (tz.localMonth pd) day (hour + 1) 0
            .transitionError = .ok t' →
          tz.localNaive t' = naiveOf (tz.localYear pd) (tz.localMonth pd) day (hour + 1) 0) ∧
      ((∃ t₁ t₂, t₁ ≠ t₂ ∧ tz.localNaive t₁ = L ∧ tz.localNaive t₂ = L) →
        ∃ t, replaceDateFields tz pd hour minute day = .ok t ∧
          tz.localNaive t = L ∧ ∀ s, tz.localNaive s = L → s ≤ t)) := by
  subst hL
  refine ⟨?_, ?_, ?_⟩
  · intro t ht huniq
    have hcreate := createTE_unique_ok tz hs hv ht huniq
    simp only [replaceDateFields]
    rw [hcreate]
  · intro hno
    have hcreate := createTE_nonexisting tz hs hv hno
    constructor
    · simp only [replaceDateFields]
      rw [hcreate]
    · intro t' hok
      exact createTE_ok_sound tz hs hok
  · intro hamb
    have hcreate := createTE_ambiguous tz hs hv hamb
    have hex : ∃ t, tz.localNaive t =
        naiveOf (tz.localYear pd) (tz.localMonth pd) day hour minute := by
      obtain ⟨t₁, _, _, h₁, _⟩ := hamb
      exact ⟨t₁, h₁⟩
    obtain ⟨hp₁, hp₂⟩ := normalizePost_spec tz hs hex
    refine ⟨tz.normalizePost
      (naiveOf (tz.localYear pd) (tz.localMonth pd) day hour minute), ?_, hp₁, hp₂⟩
    simp only [replaceDateFields]
    rw [hcreate]
    simp only [createPendulumTime]
    rw [if_neg (not_not_intro hv)]

/-- Witness for C5: the theorem applied at a concrete timezone (UTC+0
with a spring-forward to UTC+2 at instant 3600), in the unique-wall-time
case, at wall clock 00:01 on 1970-01-01. -/
theorem c5_replace_date_fields_dst_resolution_witness :
    replaceDateFields ⟨0, [(3600, 7200), (50400, 3600)]⟩ 0 0 1 1 = .ok 60 := by
  have huniq : ∀ t' : Int,
      Timezone.localNaive ⟨0, [(3600, 7200), (50400, 3600)]⟩ t' = 60 → t' = 60 := by
    intro t' ht'
    simp only [Timezone.localNaive, Timezone.offsetAt, offsetAtAux] at ht'
    split at ht'
    · omega
    · split at ht' <;> omega
  have h := c5_replace_date_fields_dst_resolution ⟨0, [(3600, 7200), (50400, 3600)]⟩
    (by unfold TzSorted; simp) 0 0 1 1 60 (by decide) (by decide)
  exact h.1 60 (by decide) huniq

/-- C1 (failing input): a monthly schedule with expected day 30 breaks
the previous-tick locator.  At reference instant 2022-02-15 00:00:00 UTC
(timestamp `86400 * daysFromCivil 2022 2 15`), the schedule
`minute=0, hour=0, day=30` (cron `0 0 30 * *`, classified MONTHLY) makes
`_find_previous_schedule_time` construct the invalid civil date
February 30th 2022, so the call raises pendulum's date-validation error
instead of returning the latest tick at or before the reference
(2022-01-30 00:00:00 UTC), contradicting the claim that a tick `≤ t` is
always returned.  The second conjunct shows the expected tick does exist
in the model. -/
theorem c1_find_previous_monthly_day30_raises :
    findPreviousScheduleTime ⟨0, []⟩ (some 0) (some 0) (some 30) none .monthly
        (86400 * daysFromCivil 2022 2 15) = .error .invalidDate ∧
      Timezone.localFields ⟨0, []⟩ (86400 * daysFromCivil 2022 1 30) =
        (2022, 1, 30, 0, 0) ∧
      86400 * daysFromCivil 2022 1 30 < 86400 * daysFromCivil 2022 2 15 := by
  refine ⟨by decide, by decide, by decide⟩

/-! ## Sensor evaluation engine
(`sensor_definition.py`): `evaluate_tick`, `check_valid_run_requests`,
the `SensorExecutionData` constructor invariant and the asset-sensor
wrapper `_wrap_asset_fn`. -/

structure RunRequest where
  runKey : Option String
  jobName : Option String
  deriving DecidableEq, Repr

/-- An element of the normalized evaluation result: the three runtime
types `evaluate_tick` accepts (`SkipReason` carries its optional
`skip_message`; `PipelineRunReaction` is opaque to this core). -/
inductive SensorItem
  | skipReason (skipMessage : Option String)
  | runRequest (rr : RunRequest)
  | pipelineRunReaction
  deriving DecidableEq, Repr

structure SensorExecutionData where
  run_requests : List RunRequest
  skip_message : Option String
  cursor : Option String
  pipeline_run_reactions : List Unit
  deriving DecidableEq, Repr

/-- Python truthiness of an optional string (`None` and the empty string
are falsy). -/
def optStrTruthy : Option String → Bool
  | none => false
  | some s => s ≠ ""

/-- Model of the `SensorExecutionData.__new__` constructor:
`check.invariant(not (run_requests and skip_message), "Found both skip
data and run request data")`. -/
def SensorExecutionData.new (run_requests : List RunRequest)
    (skip_message : Option String) (cursor : Option String)
    (reactions : List Unit) : Except String SensorExecutionData :=
  if run_requests ≠ [] ∧ optStrTruthy skip_message then
    .error "Found both skip data and run request data"
  else
    .ok ⟨run_requests, skip_message, cursor, reactions⟩

/-- Python list formatting of the target names (the source interpolates
`target_names` into the message; quoting of individual names is
elided). -/
def fmtNames (l : List String) : String :=
  "[" ++ String.intercalate ", " l ++ "]"

def msgNoTarget (name : String) : String :=
  "Error in sensor " ++ name ++ ": Sensor evaluation function returned a RunRequest " ++
    "for a sensor lacking a specified target (job_name, job, or jobs). Targets " ++
    "can be specified by providing job, jobs, or job_name to the @sensor " ++
    "decorator."

def msgNoJobName (name : String) (targetNames : List String) : String :=
  "Error in sensor " ++ name ++ ": Sensor returned a RunRequest that did not " ++
    "specify job_name for the requested run. Expected one of: " ++ fmtNames targetNames

def msgBadJobName (name : String) (jobName : String) (targetNames : List String) : String :=
  "Error in sensor " ++ name ++ ": Sensor returned a RunRequest with job_name " ++
    jobName ++ ". Expected one of: " ++ fmtNames targetNames

/-- The per-request loop of `check_valid_run_requests`: a request with
`job_name is None` fails only under multiple targets; a request with a
truthy `job_name` outside the target names always fails (Python
truthiness: the empty string skips the second branch). -/
def checkRunRequestsLoop (name : String) (targetNames : List String) :
    List RunRequest → Except String Unit
  | [] => .ok ()
  | rr :: rest =>
      match rr.jobName with
      | none =>
          if targetNames.length > 1 then .error (msgNoJobName name targetNames)
          else checkRunRequestsLoop name targetNames rest
      | some j =>
          if j ≠ "" ∧ j ∉ targetNames then .error (msgBadJobName name j targetNames)
          else checkRunRequestsLoop name targetNames rest

/-- Model of `SensorDefinition.check_valid_run_requests`; `targetNames`
is `[target.pipeline_name for target in self._targets]`. -/
def check_valid_run_requests (name : String) (targetNames : List String)
    (run_requests : List RunRequest) : Except String Unit :=
  if run_requests ≠ [] ∧ targetNames = [] then .error (msgNoTarget name)
  else checkRunRequestsLoop name targetNames run_requests

def isSkipItem : SensorItem → Bool
  | .skipReason _ => true
  | _ => false

def itemRunRequest : SensorItem → Option RunRequest
  | .runRequest rr => some rr
  | _ => none

def itemReaction : SensorItem → Option Unit
  | .pipelineRunReaction => some ()
  | _ => none

/-- Model of `SensorDefinition.evaluate_tick`.  `result` is the fully
consumed list produced by the wrapped evaluation function (whose
elements may be Python `None`, hence `Option SensorItem`); `cursor` is
the context's cursor at completion. -/
def evaluate_tick (name : String) (targetNames : List String)
    (cursor : Option String) (result : List (Option SensorItem)) :
    Except String SensorExecutionData := do
  let classified : List RunRequest × List Unit × Option String ←
    match result with
    | [] => .ok ([], [], some "Sensor function returned an empty result")
    | [none] => .ok ([], [], some "Sensor function returned an empty result")
    | [some item] =>
        match item with
        | .skipReason m => .ok ([], [], m)
        | .runRequest rr => .ok ([rr], [], none)
        | .pipelineRunReaction => .ok ([], [()], none)
    | _ =>
        if result.any (fun x => x.isNone) then
          .error "Member of list mismatches type. Expected (SkipReason, RunRequest, PipelineRunReaction)."
        else
          let items := result.filterMap id
          let hasSkip := items.any isSkipItem
          let runRequests := items.filterMap itemRunRequest
          let reactions := items.filterMap itemReaction
          if hasSkip then
            if runRequests.length > 0 then
              .error "Expected a single SkipReason or one or more RunRequests: received both RunRequest and SkipReason"
            else if reactions.length > 0 then
              .error "Expected a single SkipReason or one or more PipelineRunReaction: received both PipelineRunReaction and SkipReason"
            else
              .error "Expected a single SkipReason: received multiple SkipReasons"
          else
            .ok (runRequests, reactions, none)
  let (runRequests, reactions, skipMessage) := classified
  let _ ← check_valid_run_requests name targetNames runRequests
  SensorExecutionData.new runRequests skipMessage cursor reactions

/-- The result shapes a user asset-materialization routine can return:
Python `None`, a generator or list of yielded items, a bare
`RunRequest`, a bare `SkipReason`, or any other scalar (which the
wrapper silently ignores). -/
inductive AssetFnResult
  | noneResult
  | yielded (l : List SensorItem)
  | scalarRun (rr : RunRequest)
  | scalarSkip (m : Option String)
  | otherScalar
  deriving DecidableEq, Repr

def cursorNotAdvancedMsg : String :=
  "Asset materializations have been handled in this sensor, " ++
    "but the cursor was not updated. This means the same materialization events " ++
    "will be handled in the next sensor tick. Use context.advance_cursor or " ++
    "context.advance_all_cursors to update the cursor."

/-- Model of `_wrap_asset_fn` (the module-level copy used by
`PartitionedAssetSensorDefinition` and the identical nested copy in
`MultiAssetSensorDefinition.__init__`).  The wrapper resets the
context's `cursor_has_been_updated` flag, runs the user routine
(`cursorAdvanced` is the flag's value after the routine, set only by
`advance_cursor` / `advance_all_cursors`), re-yields its results —
setting `runs_yielded` for every generator/list item and for a bare
`RunRequest`, but not for a bare `SkipReason` — and finally raises the
cursor-not-advanced error if `runs_yielded` is set while the flag is
not.  Raising happens after the yields, so a fully consumed evaluation
(`list(...)` in `evaluate_tick`) surfaces only the error. -/
def wrapAssetFn (result : AssetFnResult) (cursorAdvanced : Bool) :
    Except String (List SensorItem) :=
  match result with
  | .noneResult => .ok []
  | .yielded l =>
      if l ≠ [] ∧ ¬cursorAdvanced then .error cursorNotAdvancedMsg else .ok l
  | .scalarRun rr =>
      if ¬cursorAdvanced then .error cursorNotAdvancedMsg else .ok [.runRequest rr]
  | .scalarSkip m => .ok [.skipReason m]
  | .otherScalar => .ok []

theorem checkRunRequestsLoop_ok_names (name : String) (targetNames : List String) :
    ∀ (rrs : List RunRequest), checkRunRequestsLoop name targetNames rrs = .ok () →
      1 < targetNames.length →
      ∀ rr ∈ rrs, ∃ j, rr.jobName = some j ∧ (j = "" ∨ j ∈ targetNames) := by
  intro rrs
  induction rrs with
  | nil => intro _ _ rr hrr; simp at hrr
  | cons r rest ih =>
      intro hok hlen rr hrr
      cases hj : r.jobName with
      | none =>
          simp only [checkRunRequestsLoop, hj] at hok
          rw [if_pos (by omega : targetNames.length > 1)] at hok
          exact absurd hok (by simp)
      | some j =>
          simp only [checkRunRequestsLoop, hj] at hok
          by_cases hcond : j ≠ "" ∧ j ∉ targetNames
          · rw [if_pos hcond] at hok
            exact absurd hok (by simp)
          · rw [if_neg hcond] at hok
            rcases List.mem_cons.mp hrr with hreq | hreq
            · subst hreq
              refine ⟨j, hj, ?_⟩
              push_neg at hcond
              by_cases hje : j = ""
              · exact Or.inl hje
              · exact Or.inr (hcond hje)
            · exact ih hok hlen rr hreq

/-- C7: with more than one normalized result item, the presence of any
skip-signal makes `evaluate_tick` fail fatally; and the
`SensorExecutionData` constructor rejects a state where run requests and
the skip message are both non-empty. -/
theorem c7_skip_exclusivity
    (name : String) (targetNames : List String) (cursor : Option String)
    (result : List (Option SensorItem))
    (hlen : 1 < result.length)
    (hskip : ∃ m, some (SensorItem.skipReason m) ∈ result) :
    (∃ e, evaluate_tick name targetNames cursor result = .error e) ∧
      ∀ (rr : List RunRequest) (sm : Option String) (cur : Option String)
        (pr : List Unit) (d : SensorExecutionData),
        SensorExecutionData.new rr sm cur pr = .ok d →
          ¬(rr ≠ [] ∧ optStrTruthy sm) := by
  constructor
  · obtain ⟨m, hm⟩ := hskip
    match result, hlen with
    | x :: y :: rest, _ =>
      by_cases hnone : (x :: y :: rest).any (fun o => o.isNone)
      · exact ⟨"Member of list mismatches type. Expected (SkipReason, RunRequest, PipelineRunReaction).",
          by simp [evaluate_tick, hnone, bind, Except.bind]⟩
      · have hskipmem : SensorItem.skipReason m ∈ (x :: y :: rest).filterMap id := by
          exact List.mem_filterMap.mpr ⟨some (SensorItem.skipReason m), hm, rfl⟩
        have hhasSkip : ((x :: y :: rest).filterMap id).any isSkipItem = true :=
          List.any_eq_true.mpr ⟨SensorItem.skipReason m, hskipmem, rfl⟩
        by_cases hrr : 0 < (((x :: y :: rest).filterMap id).filterMap itemRunRequest).length
        · exact ⟨"Expected a single SkipReason or one or more RunRequests: received both RunRequest and SkipReason",
            by simp [evaluate_tick, hnone, hhasSkip, hrr, bind, Except.bind]⟩
        · by_cases hpr : 0 < (((x :: y :: rest).filterMap id).filterMap itemReaction).length
          · exact ⟨"Expected a single SkipReason or one or more PipelineRunReaction: received both PipelineRunReaction and SkipReason",
              by simp [evaluate_tick, hnone, hhasSkip, hrr, hpr, bind, Except.bind]⟩
          · exact ⟨"Expected a single SkipReason: received multiple SkipReasons",
              by simp [evaluate_tick, hnone, hhasSkip, hrr, hpr, bind, Except.bind]⟩
  · intro rr sm cur pr d hok
    unfold SensorExecutionData.new at hok
    split at hok
    · exact absurd hok (by simp)
    · next h => exact h

/-- Witness for C7 at the concrete result list containing a run request
and a skip-signal (both hypotheses discharged concretely). -/
theorem c7_skip_exclusivity_witness :
    ∃ e, evaluate_tick "my_sensor" ["job_a"] none
      [some (SensorItem.runRequest ⟨none, none⟩),
       some (SensorItem.skipReason (some "no new data"))] = .error e := by
  exact (c7_skip_exclusivity "my_sensor" ["job_a"] none
    [some (SensorItem.runRequest ⟨none, none⟩),
     some (SensorItem.skipReason (some "no new data"))]
    (by decide) ⟨some "no new data", by simp⟩).1

/-- C8 (counterexample): under two configured targets, a run request
whose `job_name` is the empty string — which names no configured target
— passes validation and the whole tick succeeds, because the Python
check `run_request.job_name and run_request.job_name not in target_names`
treats the empty string as falsy.  This contradicts the claim that every
run request must name a matching target when multiple targets are
configured. -/
theorem c8_empty_jobname_escapes_validation :
    evaluate_tick "my_sensor" ["job_a", "job_b"] none
        [some (SensorItem.runRequest ⟨none, some ""⟩)] =
      .ok ⟨[⟨none, some ""⟩], none, none, []⟩ ∧
    ("" ∈ ["job_a", "job_b"]) = False ∧ 1 < (["job_a", "job_b"] : List String).length := by
  refine ⟨by decide, by simp, by decide⟩

/-- C8 (amended): a run request with no configured target fails; under
multiple targets every run request must carry an explicit `job_name`
that is either in the target names or — the Python-truthiness gap — the
empty string; and the concrete `job_c` scenario fails with the targeting
error naming the expected targets. -/
theorem c8_run_request_target_validation :
    (∀ (name : String) (targetNames : List String) (rrs : List RunRequest),
      rrs ≠ [] → targetNames = [] →
      check_valid_run_requests name targetNames rrs = .error (msgNoTarget name)) ∧
    (∀ (name : String) (targetNames : List String) (rrs : List RunRequest),
      1 < targetNames.length →
      check_valid_run_requests name targetNames rrs = .ok () →
      ∀ rr ∈ rrs, ∃ j, rr.jobName = some j ∧ (j = "" ∨ j ∈ targetNames)) ∧
    (evaluate_tick "my_sensor" ["job_a", "job_b"] none
        [some (SensorItem.runRequest ⟨none, some "job_c"⟩)] =
      .error (msgBadJobName "my_sensor" "job_c" ["job_a", "job_b"])) := by
  refine ⟨?_, ?_, by decide⟩
  · intro name targetNames rrs hne htgt
    unfold check_valid_run_requests
    rw [if_pos ⟨hne, htgt⟩]
  · intro name targetNames rrs hlen hok
    unfold check_valid_run_requests at hok
    split at hok
    · exact absurd hok (by simp)
    · exact checkRunRequestsLoop_ok_names name targetNames rrs hok hlen

/-- Witness for C8: the amended theorem applied at concrete inputs (a
non-empty request list against an empty target list, and the `ok` case
under two targets). -/
theorem c8_run_request_target_validation_witness :
    check_valid_run_requests "s" [] [⟨none, none⟩] = .error (msgNoTarget "s") ∧
      ∃ j, (⟨none, some "job_a"⟩ : RunRequest).jobName = some j ∧
        (j = "" ∨ j ∈ ["job_a", "job_b"]) := by
  constructor
  · exact c8_run_request_target_validation.1 "s" [] [⟨none, none⟩] (by simp) rfl
  · exact c8_run_request_target_validation.2.1 "s" ["job_a", "job_b"]
      [⟨none, some "job_a"⟩] (by decide) (by decide) ⟨none, some "job_a"⟩ (by simp)

/-- C9 (counterexample): on an empty normalized result the synthetic
skip message produced by `evaluate_tick` is
"Sensor function returned an empty result", not the claimed
"function returned an empty result."; the run-request list and reactions
are empty as claimed. -/
theorem c9_empty_result_message_text :
    evaluate_tick "my_sensor" [] none [] =
      .ok ⟨[], some "Sensor function returned an empty result", none, []⟩ ∧
    "Sensor function returned an empty result" ≠ "function returned an empty result." ∧
    "Sensor function returned an empty result" ≠ "function returned an empty result" := by
  refine ⟨by decide, by decide, by decide⟩

/-- C9 (amended): an empty result list, or a list containing only the
null placeholder, makes `evaluate_tick` succeed with no run requests, no
reactions, the context cursor, and the synthetic skip message
"Sensor function returned an empty result". -/
theorem c9_empty_result_synthetic_skip
    (name : String) (targetNames : List String) (cursor : Option String)
    (result : List (Option SensorItem))
    (hempty : result = [] ∨ result = [none]) :
    evaluate_tick name targetNames cursor result =
      .ok ⟨[], some "Sensor function returned an empty result", cursor, []⟩ := by
  rcases hempty with rfl | rfl <;>
    simp [evaluate_tick, check_valid_run_requests, checkRunRequestsLoop,
      SensorExecutionData.new, optStrTruthy, bind, Except.bind]

/-- Witness for C9: the amended theorem applied at a concrete sensor
with one target and a non-trivial cursor, at the empty result. -/
theorem c9_empty_result_synthetic_skip_witness :
    evaluate_tick "my_sensor" ["job_a"] (some "cursor-7") [] =
      .ok ⟨[], some "Sensor function returned an empty result", some "cursor-7", []⟩ :=
  c9_empty_result_synthetic_skip "my_sensor" ["job_a"] (some "cursor-7") [] (Or.inl rfl)

/-- C2: the asset-sensor wrapper raises the cursor-not-advanced error
whenever a run request was yielded without a cursor advance (first two
conjuncts, matching the claim), but — the divergence — it raises the
same error when the routine yielded only a skip-signal through a
generator/list, while a bare returned skip-signal passes (last two
conjuncts): `runs_yielded` is set for every yielded item, not only for
run requests. -/
theorem c2_wrap_asset_fn_cursor_enforcement :
    (∀ (l : List SensorItem) (rr : RunRequest), SensorItem.runRequest rr ∈ l →
      wrapAssetFn (.yielded l) false = .error cursorNotAdvancedMsg) ∧
    (∀ rr, wrapAssetFn (.scalarRun rr) false = .error cursorNotAdvancedMsg) ∧
    (wrapAssetFn (.yielded [SensorItem.skipReason (some "no new data")]) false =
      .error cursorNotAdvancedMsg) ∧
    (wrapAssetFn (.scalarSkip (some "no new data")) false =
      .ok [SensorItem.skipReason (some "no new data")]) := by
  refine ⟨?_, fun rr => rfl, rfl, rfl⟩
  intro l rr hmem
  simp only [wrapAssetFn]
  rw [if_pos ⟨List.ne_nil_of_mem hmem, by simp⟩]

/-- Witness for C2: the theorem applied at a concrete yielded list
containing one run request, with the membership hypothesis discharged
concretely. -/
theorem c2_wrap_asset_fn_cursor_enforcement_witness :
    wrapAssetFn (.yielded [SensorItem.runRequest ⟨none, none⟩]) false =
      .error cursorNotAdvancedMsg :=
  c2_wrap_asset_fn_cursor_enforcement.1 [SensorItem.runRequest ⟨none, none⟩]
    ⟨none, none⟩ (by simp)

/-! ## Cron expression analyzer
(model of croniter parsing/expansion as used by `CroniterShim.expand`,
`is_valid_cron_string` and `is_valid_cron_schedule`).  A cron expression
has 5 fields (minute, hour, day-of-month, month, day-of-week) or 6
(trailing seconds); each field is a comma list of `*` / number / range
items with optional `/step`, bounds-checked per position, day-of-week 7
normalized to 0. -/

/-- Whitespace tokenization (Python `str.split()` without an argument:
runs of spaces separate tokens, empties dropped). -/
def splitFieldsAux : List Char → List Char → List (List Char)
  | [], acc => if acc = [] then [] else [acc.reverse]
  | c :: cs, acc =>
      if c = ' ' then
        if acc = [] then splitFieldsAux cs []
        else acc.reverse :: splitFieldsAux cs []
      else splitFieldsAux cs (c :: acc)

def splitFieldTokens (l : List Char) : List (List Char) :=
  splitFieldsAux l []

def splitOnCharAux (sep : Char) : List Char → List Char → List (List Char)
  | [], acc => [acc.reverse]
  | c :: cs, acc =>
      if c = sep then acc.reverse :: splitOnCharAux sep cs []
      else splitOnCharAux sep cs (c :: acc)

def splitOnChar (sep : Char) (l : List Char) : List (List Char) :=
  splitOnCharAux sep l []

def parseNatChars (l : List Char) : Option Nat :=
  if l = [] then none
  else
    l.foldl
      (fun acc c =>
        match acc with
        | none => none
        | some n => if c.isDigit then some (n * 10 + (c.toNat - 48)) else none)
      (some 0)

/-- Numbers from `a` to `b` hitting every `step`-th value. -/
def stepped (a b step : Nat) : List Nat :=
  (List.range (b + 1 - a)).filterMap
    (fun i => if i % step = 0 then some (a + i) else none)

def expandBase (lo hi : Nat) (base : List Char) (step : Nat) : Option (List Nat) :=
  if base = ['*'] then some (stepped lo hi step)
  else
    match splitOnChar '-' base with
    | [n] => do
        let v ← parseNatChars n
        if lo ≤ v ∧ v ≤ hi then
          (if step = 1 then some [v] else some (stepped v hi step))
        else none
    | [a, b] => do
        let va ← parseNatChars a
        let vb ← parseNatChars b
        if lo ≤ va ∧ va ≤ vb ∧ vb ≤ hi then some (stepped va vb step) else none
    | _ => none

def expandItem (lo hi : Nat) (item : List Char) : Option (List Nat) :=
  match splitOnChar '/' item with
  | [base] => expandBase lo hi base 1
  | [base, step] => do
      let st ← parseNatChars step
      if st = 0 then none else expandBase lo hi base st
  | _ => none

/-- A croniter-expanded field: either the pure wildcard (croniter keeps
`['*']`) or the list of explicit values. -/
inductive CronField
  | star
  | nums (l : List Nat)
  deriving DecidableEq, Repr

def expandField (lo hi : Nat) (isDow : Bool) (tok : List Char) : Option CronField :=
  if tok = ['*'] then some .star
  else do
    let lists ← (splitOnChar ',' tok).mapM (expandItem lo hi)
    let vals := lists.flatten
    some (.nums (if isDow then vals.map (fun n => if n = 7 then 0 else n) else vals))

/-- Model of `CroniterShim.expand(cron_string)` restricted to the first
element of croniter's result tuple: `none` when croniter rejects the
string (`is_valid` false), otherwise the expanded field list — 5 fields
(minute, hour, day-of-month, month, day-of-week) or 6 (trailing
seconds), each bounds-checked for its position. -/
def expandCron (s : String) : Option (List CronField) :=
  match splitFieldTokens s.data with
  | [mi, h, dom, mon, dow] => do
      let f0 ← expandField 0 59 false mi
      let f1 ← expandField 0 23 false h
      let f2 ← expandField 1 31 false dom
      let f3 ← expandField 1 12 false mon
      let f4 ← expandField 0 7 true dow
      pure [f0, f1, f2, f3, f4]
  | [mi, h, dom, mon, dow, sec] => do
      let f0 ← expandField 0 59 false mi
      let f1 ← expandField 0 23 false h
      let f2 ← expandField 1 31 false dom
      let f3 ← expandField 1 12 false mon
      let f4 ← expandField 0 7 true dow
      let f5 ← expandField 0 59 false sec
      pure [f0, f1, f2, f3, f4, f5]
  | _ => none

/-- Model of `is_valid_cron_string`: croniter accepts the string and the
expansion has exactly 5 field groups (seconds resolution rejected). -/
def is_valid_cron_string (s : String) : Bool :=
  match expandCron s with
  | none => false
  | some expanded => expanded.length = 5

/-- The `Union[str, Sequence[str]]` argument of
`is_valid_cron_schedule`. -/
inductive CronSchedule
  | str (s : String)
  | seq (l : List String)

/-- Model of `is_valid_cron_schedule`. -/
def is_valid_cron_schedule : CronSchedule → Bool
  | .str s => is_valid_cron_string s
  | .seq l => decide (l.length > 0) && l.all (fun s => is_valid_cron_string s)

/-- C10: on a sequence of cron strings, `is_valid_cron_schedule` is
false for the empty sequence, and for a non-empty sequence is true
exactly when every element is accepted by the croniter model and
expands to exactly 5 field groups (the `is_valid_cron_string`
criterion). -/
theorem c10_is_valid_cron_schedule_seq :
    is_valid_cron_schedule (.seq []) = false ∧
      ∀ (l : List String), l ≠ [] →
        (is_valid_cron_schedule (.seq l) = true ↔
          ∀ s ∈ l, ∃ e, expandCron s = some e ∧ e.length = 5) := by
  constructor
  · rfl
  · intro l hl
    simp only [is_valid_cron_schedule, Bool.and_eq_true, decide_eq_true_eq,
      List.all_eq_true, List.length_pos]
    constructor
    · intro ⟨_, hall⟩ s hs
      have := hall s hs
      unfold is_valid_cron_string at this
      cases he : expandCron s with
      | none => rw [he] at this; simp at this
      | some e =>
          rw [he] at this
          simp only [decide_eq_true_eq] at this
          exact ⟨e, rfl, this⟩
    · intro hall
      refine ⟨hl, ?_⟩
      intro s hs
      obtain ⟨e, he, hlen⟩ := hall s hs
      unfold is_valid_cron_string
      rw [he]
      simp [hlen]

/-- Witness for C10: the equivalence applied to the concrete singleton
schedule `["0 0 * * *"]`. -/
theorem c10_is_valid_cron_schedule_seq_witness :
    is_valid_cron_schedule (.seq ["0 0 * * *"]) = true := by
  apply (c10_is_valid_cron_schedule_seq.2 ["0 0 * * *"] (by simp)).mpr
  intro s hs
  simp at hs
  subst hs
  exact ⟨[.nums [0], .nums [0], .star, .star, .star], by decide, by decide⟩

/-! ## Multi-expression union
(`schedule_execution_time_iterator`, sequence case).  The per-expression
sub-iterators are abstracted as streams `Nat → Int` of tick timestamps
(the `next(it)` sequence of each `cron_string_iterator`); the merge loop
keeps one head per stream (`next_dates`), emits the minimum of the
heads, and advances exactly the streams whose head equals that
minimum. -/

/-- Python `min` over a non-empty list (0 junk value for `[]`, never
used under the non-empty hypothesis). -/
def listMin : List Int → Int
  | [] => 0
  | x :: xs => xs.foldl min x

/-- The current `next_dates` list. -/
def mergeHeads (streams : List (Nat → Int)) (pos : List Nat) : List Int :=
  List.zipWith (fun f p => f p) streams pos

/-- One pass of the `while True` body: advance every stream whose head
is tied for the minimum. -/
def mergeStep (streams : List (Nat → Int)) (pos : List Nat) : List Nat :=
  let e := listMin (mergeHeads streams pos)
  List.zipWith (fun f p => if f p = e then p + 1 else p) streams pos

/-- Stream positions after `n` emissions (every sub-iterator starts with
its first element consumed into `next_dates`). -/
def mergePos (streams : List (Nat → Int)) : Nat → List Nat
  | 0 => streams.map (fun _ => 0)
  | n + 1 => mergeStep streams (mergePos streams n)

/-- The `n`-th datetime yielded by `schedule_execution_time_iterator`
over the given sub-iterator streams. -/
def schedule_execution_time_ticks (streams : List (Nat → Int)) (n : Nat) : Int :=
  listMin (mergeHeads streams (mergePos streams n))

theorem foldl_min_le_init : ∀ (xs : List Int) (a : Int), xs.foldl min a ≤ a := by
  intro xs
  induction xs with
  | nil => intro a; simp
  | cons x t ih =>
      intro a
      simp only [List.foldl_cons]
      exact le_trans (ih (min a x)) (min_le_left a x)

theorem foldl_min_le_mem :
    ∀ (xs : List Int) (a x : Int), x ∈ xs → xs.foldl min a ≤ x := by
  intro xs
  induction xs with
  | nil => intro a x hx; simp at hx
  | cons y t ih =>
      intro a x hx
      simp only [List.foldl_cons]
      rcases List.mem_cons.mp hx with rfl | hx
      · exact le_trans (foldl_min_le_init t (min a x)) (min_le_right a x)
      · exact ih (min a y) x hx

theorem foldl_min_mem :
    ∀ (xs : List Int) (a : Int), xs.foldl min a = a ∨ xs.foldl min a ∈ xs := by
  intro xs
  induction xs with
  | nil => intro a; simp
  | cons y t ih =>
      intro a
      simp only [List.foldl_cons]
      rcases ih (min a y) with h | h
      · rcases min_cases a y with ⟨hm, _⟩ | ⟨hm, _⟩
        · exact Or.inl (h.trans hm)
        · exact Or.inr (by rw [h, hm]; simp)
      · exact Or.inr (List.mem_cons_of_mem y h)

theorem listMin_le {l : List Int} {x : Int} (hx : x ∈ l) : listMin l ≤ x := by
  cases l with
  | nil => simp at hx
  | cons a t =>
      rcases List.mem_cons.mp hx with rfl | hx
      · exact foldl_min_le_init t x
      · exact foldl_min_le_mem t a x hx

theorem listMin_mem {l : List Int} (hl : l ≠ []) : listMin l ∈ l := by
  cases l with
  | nil => exact absurd rfl hl
  | cons a t =>
      rcases foldl_min_mem t a with h | h
      · rw [listMin, h]; simp
      · exact List.mem_cons_of_mem a h

theorem mergePos_length (streams : List (Nat → Int)) :
    ∀ n, (mergePos streams n).length = streams.length := by
  intro n
  induction n with
  | zero => simp [mergePos]
  | succ n ih =>
      simp only [mergePos, mergeStep, List.length_zipWith, ih, min_self]

theorem mergeHeads_length (streams : List (Nat → Int)) (pos : List Nat)
    (h : pos.length = streams.length) :
    (mergeHeads streams pos).length = streams.length := by
  simp [mergeHeads, List.length_zipWith, h]

theorem mergeStep_length (streams : List (Nat → Int)) (pos : List Nat)
    (hlen : pos.length = streams.length) :
    (mergeStep streams pos).length = streams.length := by
  simp [mergeStep, List.length_zipWith, hlen]

theorem mergeHeads_getD (streams : List (Nat → Int)) (pos : List Nat)
    (hlen : pos.length = streams.length) (i : Nat) (hi : i < streams.length) :
    (mergeHeads streams pos).getD i 0 = (streams.get ⟨i, hi⟩) (pos.getD i 0) := by
  have h1 : i < (mergeHeads streams pos).length := by
    rw [mergeHeads_length streams pos hlen]
    exact hi
  have h2 : i < pos.length := by omega
  rw [List.getD_eq_getElem _ _ h1, List.getD_eq_getElem _ _ h2]
  simp [mergeHeads, List.getElem_zipWith]

theorem mergeHeads_getD_mem (streams : List (Nat → Int)) (pos : List Nat)
    (hlen : pos.length = streams.length) (i : Nat) (hi : i < streams.length) :
    (streams.get ⟨i, hi⟩) (pos.getD i 0) ∈ mergeHeads streams pos := by
  rw [← mergeHeads_getD streams pos hlen i hi]
  have h1 : i < (mergeHeads streams pos).length := by
    rw [mergeHeads_length streams pos hlen]
    exact hi
  rw [List.getD_eq_getElem _ _ h1]
  exact List.getElem_mem _

theorem mergeStep_getD (streams : List (Nat → Int)) (pos : List Nat)
    (hlen : pos.length = streams.length) (i : Nat) (hi : i < streams.length) :
    (mergeStep streams pos).getD i 0 =
      (if (streams.get ⟨i, hi⟩) (pos.getD i 0) = listMin (mergeHeads streams pos)
       then pos.getD i 0 + 1 else pos.getD i 0) := by
  have h1 : i < (mergeStep streams pos).length := by
    rw [mergeStep_length streams pos hlen]
    exact hi
  have h2 : i < pos.length := by omega
  rw [List.getD_eq_getElem _ _ h1, List.getD_eq_getElem _ _ h2]
  simp [mergeStep, List.getElem_zipWith]

/-- Every head strictly exceeds the last emitted minimum after one merge
step. -/
theorem mergeStep_heads_gt (streams : List (Nat → Int)) (pos : List Nat)
    (hlen : pos.length = streams.length)
    (hmono : ∀ f ∈ streams, StrictMono f) (i : Nat) (hi : i < streams.length) :
    listMin (mergeHeads streams pos) <
      (streams.get ⟨i, hi⟩) ((mergeStep streams pos).getD i 0) := by
  have hle := listMin_le (mergeHeads_getD_mem streams pos hlen i hi)
  have hm : StrictMono (streams.get ⟨i, hi⟩) := hmono _ (streams.get_mem _ hi)
  rw [mergeStep_getD streams pos hlen i hi]
  by_cases heq : (streams.get ⟨i, hi⟩) (pos.getD i 0) = listMin (mergeHeads streams pos)
  · rw [if_pos heq]
    calc listMin (mergeHeads streams pos) = (streams.get ⟨i, hi⟩) (pos.getD i 0) := heq.symm
      _ < (streams.get ⟨i, hi⟩) (pos.getD i 0 + 1) := hm (by omega)
  · rw [if_neg heq]
    omega

/-- The emitted sequence is strictly increasing step to step. -/
theorem schedule_ticks_step_lt (streams : List (Nat → Int))
    (hne : streams ≠ []) (hmono : ∀ f ∈ streams, StrictMono f) (n : Nat) :
    schedule_execution_time_ticks streams n < schedule_execution_time_ticks streams (n + 1) := by
  have hlen : (mergePos streams n).length = streams.length := mergePos_length streams n
  have hlen1 : (mergePos streams (n + 1)).length = streams.length := mergePos_length streams (n + 1)
  have hhne : mergeHeads streams (mergePos streams (n + 1)) ≠ [] := by
    have := mergeHeads_length streams (mergePos streams (n + 1)) hlen1
    intro hcon
    rw [hcon] at this
    simp at this
    exact hne (List.eq_nil_of_length_eq_zero this.symm)
  obtain ⟨i, hi, heq⟩ := List.mem_iff_getElem.mp (listMin_mem hhne)
  have hi' : i < streams.length := by
    rw [mergeHeads_length streams (mergePos streams (n + 1)) hlen1] at hi
    exact hi
  have hval : (mergeHeads streams (mergePos streams (n + 1))).getD i 0 =
      listMin (mergeHeads streams (mergePos streams (n + 1))) := by
    rw [List.getD_eq_getElem _ _ hi]
    exact heq
  rw [mergeHeads_getD streams (mergePos streams (n + 1)) hlen1 i hi'] at hval
  unfold schedule_execution_time_ticks
  rw [← hval]
  have := mergeStep_heads_gt streams (mergePos streams n) hlen hmono i hi'
  simpa [mergePos] using this

theorem schedule_ticks_strictMono (streams : List (Nat → Int))
    (hne : streams ≠ []) (hmono : ∀ f ∈ streams, StrictMono f) :
    StrictMono (schedule_execution_time_ticks streams) :=
  strictMono_nat_of_lt_succ (schedule_ticks_step_lt streams hne hmono)

theorem unit_step_hits (g : Nat → Nat) (h0 : g 0 = 0)
    (hstep : ∀ n, g (n + 1) = g n ∨ g (n + 1) = g n + 1)
    (hub : ∀ N, ∃ n, N ≤ g n) (p : Nat) :
    ∃ n, g n = p ∧ g (n + 1) = p + 1 := by
  obtain ⟨n, hn⟩ := hub (p + 1)
  have hex : ∃ m, p + 1 ≤ g m := ⟨n, hn⟩
  have hm0 : p + 1 ≤ g (Nat.find hex) := Nat.find_spec hex
  have hpos : Nat.find hex ≠ 0 := by
    intro h
    rw [h, h0] at hm0
    omega
  obtain ⟨m, hm⟩ := Nat.exists_eq_succ_of_ne_zero hpos
  have hlt : ¬ p + 1 ≤ g m := Nat.find_min hex (by omega)
  rw [hm] at hm0
  simp only [Nat.succ_eq_add_one] at hm0
  refine ⟨m, ?_, ?_⟩ <;> rcases hstep m with h | h <;> omega

theorem schedule_ticks_growth (streams : List (Nat → Int))
    (hne : streams ≠ []) (hmono : ∀ f ∈ streams, StrictMono f) :
    ∀ n : Nat, schedule_execution_time_ticks streams 0 + n ≤
      schedule_execution_time_ticks streams n := by
  intro n
  induction n with
  | zero => simp
  | succ n ih =>
      have := schedule_ticks_step_lt streams hne hmono n
      push_cast
      omega

/-- Every emitted tick is the current head of some sub-iterator. -/
theorem schedule_ticks_sound (streams : List (Nat → Int)) (hne : streams ≠ [])
    (n : Nat) :
    ∃ i, ∃ hi : i < streams.length, ∃ p,
      schedule_execution_time_ticks streams n = (streams.get ⟨i, hi⟩) p := by
  have hlen : (mergePos streams n).length = streams.length := mergePos_length streams n
  have hhne : mergeHeads streams (mergePos streams n) ≠ [] := by
    have := mergeHeads_length streams (mergePos streams n) hlen
    intro hcon
    rw [hcon] at this
    simp at this
    exact hne (List.eq_nil_of_length_eq_zero this.symm)
  obtain ⟨i, hi, heq⟩ := List.mem_iff_getElem.mp (listMin_mem hhne)
  have hi' : i < streams.length := by
    rw [mergeHeads_length streams (mergePos streams n) hlen] at hi
    exact hi
  have hval : (mergeHeads streams (mergePos streams n)).getD i 0 =
      listMin (mergeHeads streams (mergePos streams n)) := by
    rw [List.getD_eq_getElem _ _ hi]
    exact heq
  rw [mergeHeads_getD streams (mergePos streams n) hlen i hi'] at hval
  exact ⟨i, hi', _, hval.symm⟩

/-- Every tick of every sub-iterator is eventually emitted. -/
theorem schedule_ticks_complete (streams : List (Nat → Int))
    (hne : streams ≠ []) (hmono : ∀ f ∈ streams, StrictMono f)
    (i : Nat) (hi : i < streams.length) (p : Nat) :
    ∃ n, schedule_execution_time_ticks streams n = (streams.get ⟨i, hi⟩) p := by
  have hg0 : (mergePos streams 0).getD i 0 = 0 := by
    have h2 : i < (mergePos streams 0).length := by
      rw [mergePos_length]
      exact hi
    rw [List.getD_eq_getElem _ _ h2]
    simp [mergePos]
  have hheadmem : ∀ n, (streams.get ⟨i, hi⟩) ((mergePos streams n).getD i 0) ∈
      mergeHeads streams (mergePos streams n) := fun n =>
    mergeHeads_getD_mem streams (mergePos streams n) (mergePos_length streams n) i hi
  have hstep : ∀ n, (mergePos streams (n + 1)).getD i 0 = (mergePos streams n).getD i 0 ∨
      ((mergePos streams (n + 1)).getD i 0 = (mergePos streams n).getD i 0 + 1 ∧
        (streams.get ⟨i, hi⟩) ((mergePos streams n).getD i 0) =
          schedule_execution_time_ticks streams n) := by
    intro n
    have hrw : (mergePos streams (n + 1)).getD i 0 =
        (mergeStep streams (mergePos streams n)).getD i 0 := rfl
    rw [hrw, mergeStep_getD streams (mergePos streams n) (mergePos_length streams n) i hi]
    by_cases hcase : (streams.get ⟨i, hi⟩) ((mergePos streams n).getD i 0) =
        listMin (mergeHeads streams (mergePos streams n))
    · rw [if_pos hcase]
      exact Or.inr ⟨rfl, hcase⟩
    · rw [if_neg hcase]
      exact Or.inl rfl
  have hub : ∀ N, ∃ n, N ≤ (mergePos streams n).getD i 0 := by
    intro N
    by_contra hcon
    push_neg at hcon
    have hmonoI : StrictMono (streams.get ⟨i, hi⟩) := hmono _ (streams.get_mem _ hi)
    have hbound : ∀ n, schedule_execution_time_ticks streams n ≤ (streams.get ⟨i, hi⟩) N := by
      intro n
      calc schedule_execution_time_ticks streams n
          ≤ (streams.get ⟨i, hi⟩) ((mergePos streams n).getD i 0) := listMin_le (hheadmem n)
        _ ≤ (streams.get ⟨i, hi⟩) N := hmonoI.monotone (hcon n).le
    have hgrow := schedule_ticks_growth streams hne hmono
    have h1 := hgrow ((streams.get ⟨i, hi⟩) N - schedule_execution_time_ticks streams 0 + 1).toNat
    have h2 := hbound ((streams.get ⟨i, hi⟩) N - schedule_execution_time_ticks streams 0 + 1).toNat
    have h3 := Int.self_le_toNat ((streams.get ⟨i, hi⟩) N - schedule_execution_time_ticks streams 0 + 1)
    omega
  obtain ⟨n, hgn, hgn1⟩ := unit_step_hits (fun n => (mergePos streams n).getD i 0) hg0
    (fun n => (hstep n).imp id And.left) hub p
  rcases hstep n with h | ⟨_, hemit⟩
  · simp only [hgn, hgn1] at h
    omega
  · rw [hgn] at hemit
    exact ⟨n, hemit.symm⟩

/-- C4: over a non-empty family of strictly increasing per-expression
tick streams, the sequence yielded by the multi-cron merge loop of
`schedule_execution_time_iterator` is strictly ascending, every emitted
instant is an element of one of the streams, and every element of every
stream is eventually emitted — i.e. the output is the sorted merge of
the individual streams with simultaneous ticks collapsed to one
emission, because all sub-iterators tied for the minimum are advanced
together. -/
theorem c4_schedule_execution_time_union (streams : List (Nat → Int))
    (hne : streams ≠ []) (hmono : ∀ f ∈ streams, StrictMono f) :
    StrictMono (schedule_execution_time_ticks streams) ∧
      (∀ n, ∃ i, ∃ hi : i < streams.length, ∃ p,
        schedule_execution_time_ticks streams n = (streams.get ⟨i, hi⟩) p) ∧
      (∀ (i : Nat) (hi : i < streams.length) (p : Nat),
        ∃ n, schedule_execution_time_ticks streams n = (streams.get ⟨i, hi⟩) p) :=
  ⟨schedule_ticks_strictMono streams hne hmono,
    fun n => schedule_ticks_sound streams hne n,
    fun i hi p => schedule_ticks_complete streams hne hmono i hi p⟩

/-- Witness for C4: the theorem applied to the two concrete streams
`n ↦ 2n` and `n ↦ 3n` (hourly-style arithmetic progressions), whose
merged first two emissions are 0 and 2. -/
theorem c4_schedule_execution_time_union_witness :
    schedule_execution_time_ticks [fun n => 2 * n, fun n => 3 * n] 0 <
      schedule_execution_time_ticks [fun n => 2 * n, fun n => 3 * n] 1 := by
  have h := c4_schedule_execution_time_union [fun n => 2 * n, fun n => 3 * n]
    (by simp)
    (by
      intro f hf
      simp only [List.mem_cons, List.mem_singleton] at hf
      rcases hf with rfl | rfl | hf
      · intro a b hab
        simp only []
        omega
      · intro a b hab
        simp only []
        omega
      · simp at hf)
  exact h.1 (by omega : (0 : Nat) < 1)

/-! ## Forward iteration and the leap-day special case
(`cron_string_iterator`).  The generic croniter path is modelled as the
chronologically ordered matches (in local wall-clock terms) of the
expanded expression at or after the start instant, windowed by a day
budget so the produced prefix is a computable list.  The leap-day branch
is the string-level rewrite the source performs before anything else:
detect the `" 29 2 *"` suffix, iterate the `" 28 2 *"` expression,
filter to leap years, shift one day forward. -/

/-- A wall-clock instant (minute granularity, which is all a 5-field
cron expression can address). -/
structure NaiveDT where
  year : Int
  month : Int
  day : Int
  hour : Nat
  minute : Nat
  deriving DecidableEq, Repr

/-- Lexicographic wall-clock order. -/
def NaiveDT.le (a b : NaiveDT) : Bool :=
  decide (a.year < b.year) ||
    (a.year == b.year &&
      (decide (a.month < b.month) ||
        (a.month == b.month &&
          (decide (a.day < b.day) ||
            (a.day == b.day &&
              (decide (a.hour < b.hour) ||
                (a.hour == b.hour && decide (a.minute ≤ b.minute))))))))

/-- The five expanded croniter fields of a 5-field expression. -/
structure CronExpr where
  minuteF : CronField
  hourF : CronField
  domF : CronField
  monthF : CronField
  dowF : CronField
  deriving DecidableEq, Repr

def parseCronExpr (s : String) : Option CronExpr :=
  match expandCron s with
  | some [mi, h, dom, mon, dow] => some ⟨mi, h, dom, mon, dow⟩
  | _ => none

def fieldHas : CronField → Nat → Bool
  | .star, _ => true
  | .nums l, v => l.contains v

/-- The values a field takes when iterated (full range for the
wildcard). -/
def fieldValues (f : CronField) (lo hi : Nat) : List Nat :=
  match f with
  | .star => (List.range (hi + 1 - lo)).map (lo + ·)
  | .nums l => l

/-- Does the date match the day-level fields?  Standard cron rule
(shared by croniter): the month must match, and day-of-month /
day-of-week combine with OR when both are restricted, with AND (i.e.
the restricted one decides) otherwise. -/
def dayMatches (e : CronExpr) (y mo d : Int) : Bool :=
  let dow := (Int.emod (daysFromCivil y mo d + 4) 7).toNat
  fieldHas e.monthF mo.toNat &&
    (match e.domF, e.dowF with
     | .star, _ => fieldHas e.dowF dow
     | _, .star => fieldHas e.domF d.toNat
     | _, _ => fieldHas e.domF d.toNat || fieldHas e.dowF dow)

/-- All ticks of the expression on one calendar date, in order. -/
def ticksOnDate (e : CronExpr) (y mo d : Int) : List NaiveDT :=
  if dayMatches e y mo d then
    ((fieldValues e.hourF 0 23).map (fun h =>
      (fieldValues e.minuteF 0 59).map (fun mi => NaiveDT.mk y mo d h mi))).flatten
  else []

/-- Calendar successor of a civil date. -/
def dateSucc : Int × Int × Int → Int × Int × Int
  | (y, mo, d) =>
      if d < daysInMonth y mo then (y, mo, d + 1)
      else if mo < 12 then (y, mo + 1, 1) else (y + 1, 1, 1)

def datesFrom : Int × Int × Int → Nat → List (Int × Int × Int)
  | _, 0 => []
  | start, n + 1 => start :: datesFrom (dateSucc start) n

/-- The ordered matches of the expression at or after `start` within the
next `fuelDays` calendar days (the windowed prefix of the croniter
`get_next` stream the generic path of `cron_string_iterator` walks). -/
def ticksInWindow (e : CronExpr) (start : NaiveDT) (fuelDays : Nat) : List NaiveDT :=
  (((datesFrom (start.year, start.month, start.day) fuelDays).map
      (fun p => ticksOnDate e p.1 p.2.1 p.2.2)).flatten).filter
    (fun dt => start.le dt)

def strEndsWith (s suffix : List Char) : Bool :=
  s.drop (s.length - suffix.length) == suffix

def stripSuffixChars (s suffix : List Char) : List Char :=
  s.take (s.length - suffix.length)

/-- Shift a tick one calendar day forward (`dt +
datetime.timedelta(days=1)` on the wall clock; no DST transition is
crossed between February 28 and 29 in any zone the source supports). -/
def shiftOneDay (dt : NaiveDT) : NaiveDT :=
  let p := dateSucc (dt.year, dt.month, dt.day)
  ⟨p.1, p.2.1, p.2.2, dt.hour, dt.minute⟩

/-- Model of `cron_string_iterator` restricted to what the leap-day
claim exercises: the leading string-level leap-day rewrite (checked
before any parsing, exactly as in the source) and the generic ordered
match stream.  `recFuel` bounds the recursion depth: the source recurses
at most once because the rewritten string cannot end in `" 29 2 *"`
again (the C6 theorem proves exactly that), and Python `split` into two
names would raise if the separator occurred twice, so suffix stripping
is exact on the defined inputs.  An invalid expression yields nothing
(croniter would raise). -/
def cronStringIteratorAux : Nat → String → NaiveDT → Nat → List NaiveDT
  | 0, _, _, _ => []
  | recFuel + 1, cs, start, fuelDays =>
      if strEndsWith cs.data " 29 2 *".data then
        let minHour := stripSuffixChars cs.data " 29 2 *".data
        let dayBefore : String := ⟨minHour ++ " 28 2 *".data⟩
        ((cronStringIteratorAux recFuel dayBefore start fuelDays).filter
          (fun dt => isLeap dt.year)).map shiftOneDay
      else
        match parseCronExpr cs with
        | some e => ticksInWindow e start fuelDays
        | none => []

def cron_string_iterator_ticks (cs : String) (start : NaiveDT) (fuelDays : Nat) :
    List NaiveDT :=
  cronStringIteratorAux 2 cs start fuelDays

theorem splitFieldsAux_append (b : List Char) :
    ∀ (a acc : List Char),
      splitFieldsAux (a ++ ' ' :: b) acc =
        splitFieldsAux a acc ++ splitFieldsAux b [] := by
  intro a
  induction a with
  | nil =>
      intro acc
      by_cases hacc : acc = []
      · simp [splitFieldsAux, hacc]
      · simp [splitFieldsAux, hacc]
  | cons c cs ih =>
      intro acc
      by_cases hc : c = ' '
      · subst hc
        by_cases hacc : acc = []
        · show splitFieldsAux (' ' :: (cs ++ ' ' :: b)) acc = _
          rw [splitFieldsAux, if_pos rfl, if_pos hacc, ih []]
          rw [splitFieldsAux, if_pos rfl, if_pos hacc]
        · show splitFieldsAux (' ' :: (cs ++ ' ' :: b)) acc = _
          rw [splitFieldsAux, if_pos rfl, if_neg hacc, ih []]
          rw [splitFieldsAux, if_pos rfl, if_neg hacc, List.cons_append]
      · show splitFieldsAux (c :: (cs ++ ' ' :: b)) acc = _
        rw [splitFieldsAux, if_neg hc, ih (c :: acc)]
        rw [splitFieldsAux, if_neg hc]

theorem strEndsWith_append (a b : List Char) : strEndsWith (a ++ b) b = true := by
  unfold strEndsWith
  rw [List.length_append]
  have h : a.length + b.length - b.length = a.length := by omega
  rw [h, List.drop_left]
  simp

theorem strEndsWith_append_ne (a b c : List Char) (hlen : b.length = c.length)
    (hne : b ≠ c) : strEndsWith (a ++ b) c = false := by
  unfold strEndsWith
  rw [List.length_append, hlen]
  have h : a.length + c.length - c.length = a.length := by omega
  rw [h, List.drop_left]
  exact beq_eq_false_iff_ne.mpr hne

theorem stripSuffixChars_append (a b : List Char) :
    stripSuffixChars (a ++ b) b = a := by
  unfold stripSuffixChars
  rw [List.length_append]
  have h : a.length + b.length - b.length = a.length := by omega
  rw [h, List.take_left]

/-- Parsing the rewritten day-28 expression pins the day-of-month field
to `{28}`, the month field to `{2}`, and leaves the day-of-week a
wildcard. -/
theorem parseCron_append28 (mh : String) (e : CronExpr)
    (hparse : parseCronExpr ⟨mh.data ++ " 28 2 *".data⟩ = some e) :
    e.domF = .nums [28] ∧ e.monthF = .nums [2] ∧ e.dowF = .star := by
  unfold parseCronExpr expandCron at hparse
  have hdata : (" 28 2 *".data : List Char) = ' ' :: "28 2 *".data := by decide
  have htoks : splitFieldTokens (mh.data ++ " 28 2 *".data) =
      splitFieldTokens mh.data ++ [['2', '8'], ['2'], ['*']] := by
    rw [hdata]
    show splitFieldsAux (mh.data ++ ' ' :: "28 2 *".data) [] = _
    rw [splitFieldsAux_append]
    rfl
  simp only [String.data] at hparse
  rw [htoks] at hparse
  rcases hmt : splitFieldTokens mh.data with _ | ⟨t0, _ | ⟨t1, _ | ⟨t2, rest⟩⟩⟩
  · rw [hmt] at hparse
    simp at hparse
  · rw [hmt] at hparse
    simp at hparse
  · rw [hmt] at hparse
    simp only [List.cons_append, List.nil_append] at hparse
    cases h0 : expandField 0 59 false t0 with
    | none => rw [h0] at hparse; simp [bind, Option.bind] at hparse
    | some f0 =>
        cases h1 : expandField 0 23 false t1 with
        | none => rw [h0, h1] at hparse; simp [bind, Option.bind] at hparse
        | some f1 =>
            rw [h0, h1] at hparse
            have h2 : expandField 1 31 false ['2', '8'] = some (.nums [28]) := by decide
            have h3 : expandField 1 12 false ['2'] = some (.nums [2]) := by decide
            have h4 : expandField 0 7 true ['*'] = some .star := by decide
            rw [h2, h3, h4] at hparse
            simp [bind, Option.bind, pure] at hparse
            rw [← hparse]
            exact ⟨rfl, rfl, rfl⟩
  · rcases rest with _ | ⟨t3, rest2⟩
    · rw [hmt] at hparse
      simp only [List.cons_append, List.nil_append] at hparse
      have h12 : expandField 1 12 false ['2', '8'] = none := by decide
      rcases h0 : expandField 0 59 false t0 with _ | f0 <;>
        rcases h1 : expandField 0 23 false t1 with _ | f1 <;>
          rcases h2 : expandField 1 31 false t2 with _ | f2 <;>
            simp [h0, h1, h2, h12, bind, Option.bind] at hparse
    · rw [hmt] at hparse
      simp only [List.cons_append, List.nil_append] at hparse
      obtain ⟨u1, u2, u3, us, hu⟩ :
          ∃ u1 u2 u3 us, rest2 ++ [['2', '8'], ['2'], ['*']] = u1 :: u2 :: u3 :: us := by
        clear hparse hmt
        induction rest2 with
        | nil => exact ⟨_, _, _, [], rfl⟩
        | cons a t ih =>
            obtain ⟨u1, u2, u3, us, h⟩ := ih
            exact ⟨a, u1, u2, u3 :: us, by rw [List.cons_append, h]⟩
      rw [hu] at hparse
      simp at hparse
theorem ticksInWindow_dayMatches (e : CronExpr) (start : NaiveDT) (fuel : Nat) :
    ∀ dt ∈ ticksInWindow e start fuel, dayMatches e dt.year dt.month dt.day = true := by
  intro dt hdt
  unfold ticksInWindow at hdt
  rw [List.mem_filter] at hdt
  obtain ⟨hmem, _⟩ := hdt
  rw [List.mem_flatten] at hmem
  obtain ⟨l, hl, hdtl⟩ := hmem
  rw [List.mem_map] at hl
  obtain ⟨p, _, rfl⟩ := hl
  unfold ticksOnDate at hdtl
  split at hdtl
  · next hday =>
      rw [List.mem_flatten] at hdtl
      obtain ⟨l2, hl2, hdtl2⟩ := hdtl
      rw [List.mem_map] at hl2
      obtain ⟨h, _, rfl⟩ := hl2
      rw [List.mem_map] at hdtl2
      obtain ⟨mi, _, rfl⟩ := hdtl2
      simpa using hday
  · simp at hdtl

/-- C6: a cron string ending in `" 29 2 *"` is iterated by rewriting it
to the equivalent `" 28 2 *"` expression, iterating that generically,
keeping only ticks in leap years, and shifting each kept tick one day
forward; consequently every emitted tick is February 29 of a leap
year. -/
theorem c6_leap_day_iteration (mh : String) (start : NaiveDT) (fuelDays : Nat)
    (e28 : CronExpr)
    (hparse : parseCronExpr ⟨mh.data ++ " 28 2 *".data⟩ = some e28) :
    cron_string_iterator_ticks ⟨mh.data ++ " 29 2 *".data⟩ start fuelDays =
      ((ticksInWindow e28 start fuelDays).filter (fun dt => isLeap dt.year)).map
        shiftOneDay ∧
    ∀ dt ∈ cron_string_iterator_ticks ⟨mh.data ++ " 29 2 *".data⟩ start fuelDays,
      dt.month = 2 ∧ dt.day = 29 ∧ isLeap dt.year = true := by
  have h29 : strEndsWith (mh.data ++ " 29 2 *".data) " 29 2 *".data = true :=
    strEndsWith_append _ _
  have hstrip : stripSuffixChars (mh.data ++ " 29 2 *".data) " 29 2 *".data = mh.data :=
    stripSuffixChars_append _ _
  have h28 : strEndsWith (mh.data ++ " 28 2 *".data) " 29 2 *".data = false :=
    strEndsWith_append_ne _ _ _ (by decide) (by decide)
  have hinner : cronStringIteratorAux 1 ⟨mh.data ++ " 28 2 *".data⟩ start fuelDays =
      ticksInWindow e28 start fuelDays := by
    show cronStringIteratorAux (0 + 1) ⟨mh.data ++ " 28 2 *".data⟩ start fuelDays = _
    rw [cronStringIteratorAux]
    simp only [String.data, h28]
    rw [if_neg (by simp)]
    rw [hparse]
  have hmain : cron_string_iterator_ticks ⟨mh.data ++ " 29 2 *".data⟩ start fuelDays =
      ((ticksInWindow e28 start fuelDays).filter (fun dt => isLeap dt.year)).map
        shiftOneDay := by
    show cronStringIteratorAux (1 + 1) ⟨mh.data ++ " 29 2 *".data⟩ start fuelDays = _
    rw [cronStringIteratorAux]
    simp only [String.data, h29, hstrip]
    rw [if_pos trivial]
    exact congrArg
      (fun l => List.map shiftOneDay (List.filter (fun dt => isLeap dt.year) l)) hinner
  refine ⟨hmain, ?_⟩
  intro dt hdt
  rw [hmain] at hdt
  rw [List.mem_map] at hdt
  obtain ⟨dt', hdt', rfl⟩ := hdt
  rw [List.mem_filter] at hdt'
  obtain ⟨hwin, hleap⟩ := hdt'
  have hday := ticksInWindow_dayMatches e28 start fuelDays dt' hwin
  obtain ⟨hdom, hmonth, hdow⟩ := parseCron_append28 mh e28 hparse
  unfold dayMatches at hday
  rw [hdom, hmonth, hdow] at hday
  simp only [fieldHas, Bool.and_eq_true, List.contains_cons, List.contains_nil,
    Bool.or_eq_true, beq_iff_eq, Bool.false_eq_true, or_false] at hday
  have hmo : dt'.month = 2 := by omega
  have hd : dt'.day = 28 := by omega
  have hdm : daysInMonth dt'.year 2 = 29 := by
    unfold daysInMonth
    rw [if_pos rfl, if_pos hleap]
  refine ⟨?_, ?_, ?_⟩
  · show (dateSucc (dt'.year, dt'.month, dt'.day)).2.1 = 2
    rw [hmo, hd]
    simp [dateSucc, hdm]
  · show (dateSucc (dt'.year, dt'.month, dt'.day)).2.2 = 29
    rw [hmo, hd]
    simp [dateSucc, hdm]
  · show isLeap (dateSucc (dt'.year, dt'.month, dt'.day)).1 = true
    rw [hmo, hd]
    simp [dateSucc, hdm, hleap]

/-- Witness for C6: the theorem applied at the concrete expression
`"0 0 29 2 *"` (midnight of February 29), a start of 2023-01-01 and an
800-day window, with the parsing hypothesis discharged by
computation. -/
theorem c6_leap_day_iteration_witness :
    cron_string_iterator_ticks ⟨"0 0".data ++ " 29 2 *".data⟩ ⟨2023, 1, 1, 0, 0⟩ 800 =
      ((ticksInWindow ⟨.nums [0], .nums [0], .nums [28], .nums [2], .star⟩
          ⟨2023, 1, 1, 0, 0⟩ 800).filter (fun dt => isLeap dt.year)).map shiftOneDay :=
  (c6_leap_day_iteration "0 0" ⟨2023, 1, 1, 0, 0⟩ 800
    ⟨.nums [0], .nums [0], .nums [28], .nums [2], .star⟩ (by decide)).1

end DagsterSched
